import Mathlib

/-!
Shallow embedding of `version-bump.py`, a pre-commit hook that auto-increments
the semantic-version patch component of package manifests for packages with
staged changes, skipping packages whose version was bumped manually, and
finally propagating a bump to the root manifest.

Python strings are modelled as `List Char` (named `Str`); filesystem paths as
lists of path components relative to the repository root (named `PathT`).
External effects (git subprocess results, filesystem reads, tomlkit edits) are
modelled by an explicit environment of oracles; the pure post-processing that
the script performs on those results (regex searches, string splitting,
`int()` parsing) is embedded directly.
-/

set_option autoImplicit false

/-- Python strings, modelled as lists of characters. -/
abbrev Str := List Char

/-- A filesystem path, as its list of components relative to the repo root. -/
abbrev PathT := List Str

/-- ASCII whitespace, as stripped by Python's `str.strip()` and `int()` and
matched by `\s` in the regexes (the unicode cases are not exercised here). -/
def isPyWS (c : Char) : Bool :=
  c == ' ' || c == Char.ofNat 9 || c == Char.ofNat 10 || c == Char.ofNat 11 ||
    c == Char.ofNat 12 || c == Char.ofNat 13

/-- Python `str.strip()`: remove leading and trailing whitespace. -/
def pyStrip (s : Str) : Str :=
  ((s.dropWhile isPyWS).reverse.dropWhile isPyWS).reverse

/-- Helper for `splitOn`, carrying the current chunk reversed. -/
def splitOnAux (sep : Char) : Str → Str → List Str
  | [], acc => [acc.reverse]
  | c :: cs, acc =>
    if c = sep then acc.reverse :: splitOnAux sep cs []
    else splitOnAux sep cs (c :: acc)

/-- Python `s.split(sep)` for a one-character separator: the list of chunks
between occurrences of `sep` (empty input yields `[""]`, like Python). -/
def splitOn (sep : Char) (s : Str) : List Str := splitOnAux sep s []

/-- Numeric value of an ASCII digit character. -/
def digitVal (c : Char) : Nat := c.toNat - 48

/-- Digit-run scanner for Python `int()`: after an initial digit, further
digits may be separated by single underscores placed between digits. -/
def pyDigitsGo (acc : Nat) : Str → Option Nat
  | [] => some acc
  | c :: cs =>
    if c.isDigit then pyDigitsGo (acc * 10 + digitVal c) cs
    else if c = '_' then
      match cs with
      | [] => none
      | d :: ds => if d.isDigit then pyDigitsGo (acc * 10 + digitVal d) ds else none
    else none

/-- The digit part accepted by Python `int()`: a nonempty digit string with
optional single underscores between digits. -/
def pyDigits : Str → Option Nat
  | [] => none
  | c :: cs => if c.isDigit then pyDigitsGo (digitVal c) cs else none

/-- Sign-and-digits phase of Python `int()` on the stripped input. -/
def pyIntSigned : Str → Option Int
  | [] => none
  | c :: rest =>
    if c = '+' then (pyDigits rest).map (fun n => (n : Int))
    else if c = '-' then (pyDigits rest).map (fun n => -(n : Int))
    else (pyDigits (c :: rest)).map (fun n => (n : Int))

/-- Python `int(s)`: strip whitespace, optional sign, then digits
(with underscore separators); `none` models a raised `ValueError`. -/
def pyInt? (s : Str) : Option Int :=
  pyIntSigned (pyStrip s)

/-- The local `version_core` of `parse_version` (line 142):
`version_str.split("-")[0].split("+")[0]`, i.e. the prefix before the first
`-`, then the prefix of that before the first `+`. -/
def version_core (s : Str) : Str :=
  (s.takeWhile (fun c => c != '-')).takeWhile (fun c => c != '+')

/-- Embedding of `parse_version` (version-bump.py lines 139-148): drop
everything from the first `-` (then from the first `+`), split the rest on
dots, and require exactly three `int()`-parseable components. `none` models a
raised `ValueError`. -/
def parse_version (s : Str) : Option (Int × Int × Int) :=
  match splitOn '.' (version_core s) with
  | [a, b, c] =>
    match pyInt? a, pyInt? b, pyInt? c with
    | some x, some y, some z => some (x, y, z)
    | _, _, _ => none
  | _ => none

/-- Decimal digits of `n`, most significant first, prepended to `acc`;
structural recursion on a fuel argument so that it reduces by computation
(any fuel at least `n` gives the same result). -/
def natToStrGo : Nat → Nat → Str → Str
  | 0, _, acc => acc
  | fuel + 1, n, acc =>
    if n = 0 then acc else natToStrGo fuel (n / 10) (Char.ofNat (48 + n % 10) :: acc)

/-- Python `str(n)` for a natural number: canonical decimal representation. -/
def natToStr (n : Nat) : Str :=
  if n = 0 then ['0'] else natToStrGo n n []

/-- Python `str(i)` for an integer (as used by the f-string formatting). -/
def intToStr (i : Int) : Str :=
  if i < 0 then '-' :: natToStr i.natAbs else natToStr i.natAbs

/-- Embedding of `increment_patch_version` (lines 151-154): parse, then format
`f"{major}.{minor}.{patch + 1}"`; `none` models the propagated `ValueError`. -/
def increment_patch_version (s : Str) : Option Str :=
  (parse_version s).map
    (fun v => intToStr v.1 ++ '.' :: intToStr v.2.1 ++ '.' :: intToStr (v.2.2 + 1))

/-- The canonical version string `"x.y.z"` built from three natural-number
components, used to state the spec's claims about valid version shapes. -/
def canonVer (x y z : Nat) : Str :=
  natToStr x ++ '.' :: (natToStr y ++ '.' :: natToStr z)

/-!
Model of the two `re.search` uses. Pattern A (`get_version_from_diff`,
lines 227-243) is `\+version\s*=\s*["']([^"']+)["']`; pattern B (the inline
HEAD-version extraction in `main`, lines 342 and 384) is the same without the
leading `+`. Both are deterministic: `\s*` is followed by a non-whitespace
literal and the greedy `[^"']+` is followed by the complementary quote class,
so no backtracking alternatives exist and `re.search` returns the group of the
leftmost position at which the whole pattern matches.
-/

/-- Quote characters of the regex classes: double quote and single quote. -/
def isQuote (c : Char) : Bool := c == Char.ofNat 34 || c == Char.ofNat 39

/-- Consume an exact literal; `none` if the input does not start with it. -/
def dropLit : Str → Str → Option Str
  | [], s => some s
  | _ :: _, [] => none
  | c :: cs, x :: xs => if x = c then dropLit cs xs else none

/-- Attempt the version pattern (literal, `\s*`, `=`, `\s*`, quote, nonempty
non-quote run, quote) at the start of `s`; returns the captured group. -/
def matchVersionAt (lit : Str) (s : Str) : Option Str :=
  match dropLit lit s with
  | none => none
  | some s1 =>
    match s1.dropWhile isPyWS with
    | '=' :: s3 =>
      match s3.dropWhile isPyWS with
      | [] => none
      | q :: s5 =>
        if isQuote q then
          let body := s5.takeWhile (fun c => !isQuote c)
          match s5.dropWhile (fun c => !isQuote c) with
          | [] => none
          | _ :: _ => if body = [] then none else some body
        else none
    | _ => none

/-- Model of `re.search(pattern, s).group(1)` for the version patterns:
try the pattern at each position, leftmost first. -/
def reSearchGroup (lit : Str) : Str → Option Str
  | [] => none
  | c :: cs =>
    match matchVersionAt lit (c :: cs) with
    | some b => some b
    | none => reSearchGroup lit cs

/-- The literal of pattern B: `version`. -/
def versionLit : Str := "version".data

/-- The literal of pattern A: `+version`. -/
def plusVersionLit : Str := '+' :: versionLit

/-- The manifest filename found by `rglob`. -/
def pyTomlName : Str := "pyproject.toml".data

/-- Manifest path of a package directory: `package_dir / "pyproject.toml"`. -/
def manifestOf (d : PathT) : PathT := d ++ [pyTomlName]

/-- Lexicographic codepoint comparison of strings, as Python string `<=`. -/
def strLe : Str → Str → Bool
  | [], _ => true
  | _ :: _, [] => false
  | a :: as, b :: bs =>
    if a.toNat < b.toNat then true
    else if b.toNat < a.toNat then false
    else strLe as bs

/-- Path comparison used by `sorted` over `Path` objects, which compares the
path strings; components are rejoined with `/` for the comparison. -/
def pathLe (a b : PathT) : Bool :=
  strLe (List.intercalate ['/'] a) (List.intercalate ['/'] b)

/-- Insert into a sorted list (helper for `sortPaths`). -/
def insertPath (x : PathT) : List PathT → List PathT
  | [] => [x]
  | y :: ys => if pathLe x y then x :: y :: ys else y :: insertPath x ys

/-- Model of `sorted(list(changed_packages))`: insertion sort by `pathLe`. -/
def sortPaths : List PathT → List PathT
  | [] => []
  | x :: xs => insertPath x (sortPaths xs)

/-- Embedding of `get_changed_packages` (lines 61-136). The `rglob` result is
given as the list `pkgDirs` of directories containing a `pyproject.toml`; the
compiled ignore regexes are abstracted into the predicate `ignore` on the
relative directory path. A directory is kept when it is not the root
manifest's directory, is not ignored, and some changed file lies under it
(`Path.is_relative_to`, i.e. the directory's components are a prefix of the
file's components). -/
def get_changed_packages (staged_files : List PathT) (ignore : PathT → Bool)
    (rootDir : PathT) (pkgDirs : List PathT) : List PathT :=
  pkgDirs.filter (fun d =>
    !(d == rootDir) && !ignore d && staged_files.any (fun f => d.isPrefixOf f))

/-- Result of one git subprocess: captured stdout, or a non-zero exit. -/
inductive GitRes where
  | ok (out : Str)
  | fail
  deriving DecidableEq

/-- The git invocations the script can make. -/
inductive CallKind where
  | diffCached
  | diffTree (sha : Str)
  | diffCommits (before after : Str)
  | diffCachedFile (p : PathT)
  | showFile (p : PathT)
  | add (p : PathT)
  deriving DecidableEq

/-- Whether a call is the `git add` of `stage_file` (the only git invocation
not routed through `run_git_command`). -/
def isAddCall : CallKind → Bool
  | CallKind.add _ => true
  | _ => false

/-- Observable events of a run, in program order. -/
inductive Event where
  | skippedMissing (d : PathT)
  | skippedNoVersion (d : PathT)
  | handledManual (d : PathT) (headV dv : Str)
  | handledNew (d : PathT) (dv : Str)
  | versionWritten (d : PathT) (oldV newV : Str)
  | fileStaged (d : PathT)
  | stageFailed (d : PathT)
  | writeFailed (d : PathT)
  | fatalParse (p : PathT)
  | rootManual (headV sv : Str)
  | rootNew (sv : Str)
  | rootWritten (oldV newV : Str)
  | rootStaged
  | rootStageFailed
  | rootWriteFailed
  | rootNoVersion
  deriving DecidableEq

/-- Environment of external effects: git results keyed by command, and the
filesystem / tomlkit oracles. `diskVersion` models `get_version_from_pyproject`
(`none` covering unreadable files, parse errors and a missing version field);
`setVersionOk` models the return value of `set_version_in_pyproject` (`true`
exactly when the file was rewritten); `stageOk` models the exit status of
`git add`. Git outputs are raw stdout; `run_git_command` strips them. -/
structure Env where
  commitBefore : Option Str
  commitAfter : Option Str
  gitDiffCached : GitRes
  gitDiffTree : GitRes
  gitDiffRange : GitRes
  gitDiffFile : PathT → GitRes
  gitShow : PathT → GitRes
  packageDirs : List PathT
  ignore : PathT → Bool
  rootManifest : PathT
  dontBumpRoot : Bool
  fsExists : PathT → Bool
  diskVersion : PathT → Option Str
  setVersionOk : PathT → Str → Bool
  stageOk : PathT → Bool

/-- The git call chosen by `get_changed_files` (lines 37-58): an explicit
commit range when both commit arguments are present and nonempty (with the
all-zeros `before` going through `git diff-tree`), otherwise the staged diff. -/
def changedFilesCall (e : Env) : CallKind × GitRes :=
  match e.commitBefore, e.commitAfter with
  | some b, some a =>
    if b = [] || a = [] then (CallKind.diffCached, e.gitDiffCached)
    else if b = List.replicate 40 '0' then (CallKind.diffTree a, e.gitDiffTree)
    else (CallKind.diffCommits b a, e.gitDiffRange)
  | _, _ => (CallKind.diffCached, e.gitDiffCached)

/-- Post-processing of the changed-files output: strip (done by
`run_git_command`), split into lines, and parse each line into a path. -/
def changedOf (out : Str) : List PathT :=
  let s := pyStrip out
  if s = [] then [] else (splitOn (Char.ofNat 10) s).map (fun l => splitOn '/' l)

/-- The changed-file paths a run works with (empty when the initial git call
fails, in which case the run exits before using them). -/
def changedPathsOf (e : Env) : List PathT :=
  match changedFilesCall e with
  | (_, GitRes.fail) => []
  | (_, GitRes.ok out) => changedOf out

/-- Embedding of `get_version_from_diff` (lines 227-243) after a successful
`git diff --cached --unified=0 path`: pattern A searched in the stripped
output. The fatal path (git failure is a `sys.exit(1)`, which the
`except Exception` clause does not catch) is handled at the call sites. -/
def get_version_from_diff (e : Env) (p : PathT) : Option Str :=
  match e.gitDiffFile p with
  | GitRes.fail => none
  | GitRes.ok out => reSearchGroup plusVersionLit (pyStrip out)

/-- Embedding of the HEAD-version extraction (lines 336-346 and 378-388):
`git show HEAD:path`, then pattern B searched in the nonempty stripped
content. Git failure is again a fatal `sys.exit(1)` handled at call sites. -/
def headVersionOf (e : Env) (p : PathT) : Option Str :=
  match e.gitShow p with
  | GitRes.fail => none
  | GitRes.ok out =>
    let content := pyStrip out
    if content = [] then none else reSearchGroup versionLit content


/-- Intermediate result of processing one package (or the root): the git
calls made, the events produced, whether the package was appended to
`packages_bumped`, and whether the run died (`sys.exit(1)` from a failed
`run_git_command`, or an uncaught `ValueError` from `parse_version`). -/
structure PkgStep where
  calls : List (CallKind × Bool)
  events : List Event
  handled : Bool
  fatal : Bool
  deriving DecidableEq

/-- Embedding of one iteration of the package loop in `main`
(lines 319-369) for the package directory `d`, given the changed-file set
`changed`. Order of effects follows the code: the staged-diff query runs
before the unreadable-current-version check, and the `git show` query after
it; the manual-bump branch (lines 349-357) consults the manifest's presence
in the changeset and the truthiness of the extracted versions; otherwise the
auto-bump path runs (`increment_patch_version`, `set_version_in_pyproject`,
`stage_file`), and only a successful write followed by a successful stage
records the package as handled. -/
def processPackage (e : Env) (changed : List PathT) (d : PathT) : PkgStep :=
  let p := manifestOf d
  if e.fsExists p = false then ⟨[], [Event.skippedMissing d], false, false⟩
  else
    match e.gitDiffFile p with
    | GitRes.fail => ⟨[(CallKind.diffCachedFile p, false)], [], false, true⟩
    | GitRes.ok _ =>
      let c1 := [(CallKind.diffCachedFile p, true)]
      let dvOpt := get_version_from_diff e p
      match e.diskVersion p with
      | none => ⟨c1, [Event.skippedNoVersion d], false, false⟩
      | some cur =>
        match e.gitShow p with
        | GitRes.fail => ⟨c1 ++ [(CallKind.showFile p, false)], [], false, true⟩
        | GitRes.ok _ =>
          let c2 := c1 ++ [(CallKind.showFile p, true)]
          let ov := headVersionOf e p
          let autoBump := fun (_ : Unit) =>
            match increment_patch_version cur with
            | none => ⟨c2, [Event.fatalParse p], false, true⟩
            | some newV =>
              if e.setVersionOk p newV then
                if e.stageOk p then
                  ⟨c2 ++ [(CallKind.add p, true)],
                    [Event.versionWritten d cur newV, Event.fileStaged d], true, false⟩
                else
                  ⟨c2 ++ [(CallKind.add p, false)],
                    [Event.versionWritten d cur newV, Event.stageFailed d], false, false⟩
              else ⟨c2, [Event.writeFailed d], false, false⟩
          if p ∈ changed then
            match dvOpt with
            | some dv =>
              match ov with
              | some o =>
                if dv ≠ o then ⟨c2, [Event.handledManual d o dv], true, false⟩
                else autoBump ()
              | none =>
                if dv ≠ [] then ⟨c2, [Event.handledNew d dv], true, false⟩
                else autoBump ()
            | none => autoBump ()
          else autoBump ()

/-- Accumulated result of the package loop. -/
structure LoopOut where
  calls : List (CallKind × Bool)
  events : List Event
  handled : List PathT
  fatal : Bool
  deriving DecidableEq

/-- The package loop of `main` (line 319): process the sorted changed
packages in order, stopping at the first fatal step. -/
def runLoop (e : Env) (changed : List PathT) : List PathT → LoopOut
  | [] => ⟨[], [], [], false⟩
  | d :: ds =>
    let s := processPackage e changed d
    if s.fatal then ⟨s.calls, s.events, [], true⟩
    else
      let r := runLoop e changed ds
      ⟨s.calls ++ r.calls, s.events ++ r.events,
        (if s.handled then [d] else []) ++ r.handled, r.fatal⟩

/-- Embedding of the root-propagation block (lines 372-412), entered when at
least one package was handled and root bumping is enabled: the same
staged-diff / HEAD queries and manual-bump detection as for packages, then an
auto-bump guarded by the truthiness of the current root version. The root is
never appended to `packages_bumped`. -/
def processRoot (e : Env) (changed : List PathT) : PkgStep :=
  let p := e.rootManifest
  if e.fsExists p = false then ⟨[], [], false, false⟩
  else
    match e.gitDiffFile p with
    | GitRes.fail => ⟨[(CallKind.diffCachedFile p, false)], [], false, true⟩
    | GitRes.ok _ =>
      let c1 := [(CallKind.diffCachedFile p, true)]
      let sv := get_version_from_diff e p
      match e.gitShow p with
      | GitRes.fail => ⟨c1 ++ [(CallKind.showFile p, false)], [], false, true⟩
      | GitRes.ok _ =>
        let c2 := c1 ++ [(CallKind.showFile p, true)]
        let ov := headVersionOf e p
        let rootBump := fun (_ : Unit) =>
          match e.diskVersion p with
          | some cur =>
            if cur ≠ [] then
              match increment_patch_version cur with
              | none => ⟨c2, [Event.fatalParse p], false, true⟩
              | some newV =>
                if e.setVersionOk p newV then
                  if e.stageOk p then
                    ⟨c2 ++ [(CallKind.add p, true)],
                      [Event.rootWritten cur newV, Event.rootStaged], false, false⟩
                  else
                    ⟨c2 ++ [(CallKind.add p, false)],
                      [Event.rootWritten cur newV, Event.rootStageFailed], false, false⟩
                else ⟨c2, [Event.rootWriteFailed], false, false⟩
            else ⟨c2, [Event.rootNoVersion], false, false⟩
          | none => ⟨c2, [Event.rootNoVersion], false, false⟩
        if p ∈ changed then
          match sv with
          | some s' =>
            match ov with
            | some o =>
              if s' ≠ o then ⟨c2, [Event.rootManual o s'], false, false⟩
              else rootBump ()
            | none =>
              if s' ≠ [] then ⟨c2, [Event.rootNew s'], false, false⟩
              else rootBump ()
          | none => rootBump ()
        else rootBump ()

/-- Observable result of a whole run: the process exit code, the git calls
made (with their success), the events, the final `packages_bumped` list, and
two bookkeeping flags: whether the root-propagation block was entered and
whether the package loop died fatally. -/
structure RunResult where
  exit : Nat
  calls : List (CallKind × Bool)
  events : List Event
  handled : List PathT
  rootReached : Bool
  loopFatal : Bool
  deriving DecidableEq

/-- Embedding of `main` (lines 255-420): check the root manifest exists,
enumerate changed files, attribute them to packages, run the package loop in
sorted order, and propagate to the root when some package was handled and
`--dont-bump-root` was not passed. An uncaught exception or `sys.exit(1)`
yields exit code 1; all graceful paths return 0. -/
def mainRun (e : Env) : RunResult :=
  if e.fsExists e.rootManifest = false then ⟨1, [], [], [], false, false⟩
  else
    match changedFilesCall e with
    | (ck, GitRes.fail) => ⟨1, [(ck, false)], [], [], false, false⟩
    | (ck, GitRes.ok out) =>
      let c0 := [(ck, true)]
      let changed := changedOf out
      if changed = [] then ⟨0, c0, [], [], false, false⟩
      else
        let pkgs := get_changed_packages changed e.ignore e.rootManifest.dropLast e.packageDirs
        if pkgs = [] then ⟨0, c0, [], [], false, false⟩
        else
          let lo := runLoop e changed (sortPaths pkgs)
          if lo.fatal then ⟨1, c0 ++ lo.calls, lo.events, lo.handled, false, true⟩
          else if lo.handled ≠ [] ∧ e.dontBumpRoot = false then
            let rs := processRoot e changed
            if rs.fatal then
              ⟨1, c0 ++ lo.calls ++ rs.calls, lo.events ++ rs.events, lo.handled, true, false⟩
            else
              ⟨0, c0 ++ lo.calls ++ rs.calls, lo.events ++ rs.events, lo.handled, true, false⟩
          else ⟨0, c0 ++ lo.calls, lo.events, lo.handled, false, false⟩

/-- Events emitted only by the root-propagation block carry root constructors;
this predicate picks them out. -/
def isRootEv : Event → Bool
  | Event.rootManual _ _ => true
  | Event.rootNew _ => true
  | Event.rootWritten _ _ => true
  | Event.rootStaged => true
  | Event.rootStageFailed => true
  | Event.rootWriteFailed => true
  | Event.rootNoVersion => true
  | _ => false

/-- The event recording that the root manifest file was rewritten. -/
def isRootWrittenEv : Event → Bool
  | Event.rootWritten _ _ => true
  | _ => false

/-- A call list is clean when every recorded failure is a `git add`
(the one git invocation whose failure `stage_file` absorbs). -/
def CallsOk (l : List (CallKind × Bool)) : Prop :=
  ∀ k r, (k, r) ∈ l → isAddCall k = true ∨ r = true

/-- The value folded up by reading a digit string most-significant-first. -/
def valFold (acc : Nat) (s : Str) : Nat :=
  s.foldl (fun a c => a * 10 + digitVal c) acc

/-- The parts the spec describes for `parse_version`: strip everything from
the first `-` or `+` (pre-release/build metadata), then split on dots.
Stated from the spec's words, to be compared with the embedded code. -/
def strippedParts (s : Str) : List Str :=
  splitOn '.' (s.takeWhile (fun c => c != '-' && c != '+'))

/-- Double-quote character, used to build manifest and diff lines. -/
def dq : Char := Char.ofNat 34

/-- A staged-diff line of the form `+version = "v"`. -/
def diffVersionLine (v : Str) : Str := plusVersionLit ++ (" = ").data ++ dq :: (v ++ [dq])

/-- A manifest line of the form `version = "v"`. -/
def manifestVersionLine (v : Str) : Str := versionLit ++ (" = ").data ++ dq :: (v ++ [dq])

/-- Package directories with a nested package `a/b` inside package `a`. -/
def cexNestedPkgs : List PathT := [[("a").data], [("a").data, ("b").data]]

/-- A changeset touching only a file inside the nested package `a/b`. -/
def cexNestedStaged : List PathT := [[("a").data, ("b").data, ("x.py").data]]

/-- Environment in which package `a`'s manifest is staged with version
`2.0.0` while HEAD holds `1.0.0`; the on-disk readability of the current
version is the parameter. -/
def envManual (disk : Option Str) : Env :=
  { commitBefore := none
    commitAfter := none
    gitDiffCached := GitRes.ok (("a/pyproject.toml").data)
    gitDiffTree := GitRes.ok []
    gitDiffRange := GitRes.ok []
    gitDiffFile := fun _ => GitRes.ok (diffVersionLine (("2.0.0").data))
    gitShow := fun _ => GitRes.ok (manifestVersionLine (("1.0.0").data))
    packageDirs := [[("a").data]]
    ignore := fun _ => false
    rootManifest := [pyTomlName]
    dontBumpRoot := false
    fsExists := fun _ => true
    diskVersion := fun _ => disk
    setVersionOk := fun _ _ => true
    stageOk := fun _ => true }

/-- Boolean form of `CallsOk`: every recorded failure is a `git add`. -/
def callsOkB (l : List (CallKind × Bool)) : Bool :=
  l.all (fun kr => isAddCall kr.1 || kr.2)

/-- A call list that ends in a failed non-add git call, every earlier call
being clean: the shape left behind by a fatal `run_git_command` failure. -/
def FatalCalls (l : List (CallKind × Bool)) : Prop :=
  ∃ g k, l = g ++ [(k, false)] ∧ isAddCall k = false ∧ callsOkB g = true

/-- Environment with one changed package `a` (on-disk version `1.2.3`), an
unreadable root version, and all writes and stagings succeeding. -/
def envRootless : Env :=
  { commitBefore := none
    commitAfter := none
    gitDiffCached := GitRes.ok (("a/x.py").data)
    gitDiffTree := GitRes.ok []
    gitDiffRange := GitRes.ok []
    gitDiffFile := fun _ => GitRes.ok []
    gitShow := fun _ => GitRes.ok []
    packageDirs := [[("a").data]]
    ignore := fun _ => false
    rootManifest := [pyTomlName]
    dontBumpRoot := false
    fsExists := fun _ => true
    diskVersion := fun p =>
      if p = manifestOf [("a").data] then some (("1.2.3").data) else none
    setVersionOk := fun _ _ => true
    stageOk := fun _ => true }

/-- Environment with two changed packages `a` and `b`, in which the
`git add` re-staging of `a` exits non-zero; everything else succeeds. -/
def envStageFail : Env :=
  { commitBefore := none
    commitAfter := none
    gitDiffCached := GitRes.ok ((("a/x.py").data) ++ Char.ofNat 10 :: (("b/y.py").data))
    gitDiffTree := GitRes.ok []
    gitDiffRange := GitRes.ok []
    gitDiffFile := fun _ => GitRes.ok []
    gitShow := fun _ => GitRes.ok []
    packageDirs := [[("a").data], [("b").data]]
    ignore := fun _ => false
    rootManifest := [pyTomlName]
    dontBumpRoot := false
    fsExists := fun _ => true
    diskVersion := fun _ => some (("1.2.3").data)
    setVersionOk := fun _ _ => true
    stageOk := fun p => !(p == manifestOf [("a").data]) }

/-- Environment in which the initial `git diff --cached --name-only` exits
non-zero. -/
def envGitFail : Env :=
  { envRootless with gitDiffCached := GitRes.fail }

theorem dropWhile_all_false {p : Char → Bool} (s : Str) (h : ∀ c ∈ s, p c = false) :
    s.dropWhile p = s := by
  cases s with
  | nil => rfl
  | cons c cs => simp [List.dropWhile, h c (by simp)]

theorem pyStrip_eq_self (s : Str) (h : ∀ c ∈ s, isPyWS c = false) : pyStrip s = s := by
  unfold pyStrip
  rw [dropWhile_all_false s h,
    dropWhile_all_false s.reverse (fun c hc => h c (List.mem_reverse.mp hc)),
    List.reverse_reverse]

theorem pyStrip_subset (s : Str) : ∀ c ∈ pyStrip s, c ∈ s := by
  intro c hc
  unfold pyStrip at hc
  have h1 := List.mem_reverse.mp hc
  have h2 := (List.dropWhile_suffix isPyWS).subset h1
  have h3 := List.mem_reverse.mp h2
  exact (List.dropWhile_suffix isPyWS).subset h3

theorem natToStrGo_fuel (f : Nat) : ∀ g n acc, n ≤ f → n ≤ g →
    natToStrGo f n acc = natToStrGo g n acc := by
  induction f with
  | zero =>
    intro g n acc hf hg
    have hn : n = 0 := Nat.le_zero.mp hf
    subst hn
    cases g <;> simp [natToStrGo]
  | succ f ih =>
    intro g n acc hf hg
    cases g with
    | zero =>
      have hn : n = 0 := Nat.le_zero.mp hg
      subst hn
      simp [natToStrGo]
    | succ g =>
      by_cases h : n = 0
      · subst h; simp [natToStrGo]
      · simp only [natToStrGo, if_neg h]
        have hlt : n / 10 < n := Nat.div_lt_self (Nat.pos_of_ne_zero h) (by norm_num)
        exact ih g (n / 10) _ (by omega) (by omega)

theorem natToStrGo_acc (f : Nat) : ∀ n acc, natToStrGo f n acc = natToStrGo f n [] ++ acc := by
  induction f with
  | zero => intro n acc; simp [natToStrGo]
  | succ f ih =>
    intro n acc
    by_cases h : n = 0
    · simp [natToStrGo, h]
    · simp only [natToStrGo, if_neg h]
      rw [ih (n / 10) (Char.ofNat (48 + n % 10) :: acc),
        ih (n / 10) [Char.ofNat (48 + n % 10)]]
      simp

theorem natToStr_core_rec (n : Nat) (h : n ≠ 0) :
    natToStrGo n n [] =
      natToStrGo (n / 10) (n / 10) [] ++ [Char.ofNat (48 + n % 10)] := by
  obtain ⟨m, rfl⟩ : ∃ m, n = m + 1 := ⟨n - 1, by omega⟩
  have h1 : natToStrGo (m + 1) (m + 1) [] =
      natToStrGo m ((m + 1) / 10) [Char.ofNat (48 + (m + 1) % 10)] := by
    simp [natToStrGo]
  rw [h1, natToStrGo_acc]
  have hlt : (m + 1) / 10 < m + 1 := Nat.div_lt_self (by omega) (by norm_num)
  rw [natToStrGo_fuel m ((m + 1) / 10) ((m + 1) / 10) [] (by omega) le_rfl]

theorem digitChar_isDigit (m : Nat) (h : m < 10) : (Char.ofNat (48 + m)).isDigit = true := by
  interval_cases m <;> decide

theorem digitChar_val (m : Nat) (h : m < 10) : digitVal (Char.ofNat (48 + m)) = m := by
  interval_cases m <;> decide

theorem natToStr_core_digits (n : Nat) : ∀ c ∈ natToStrGo n n [], c.isDigit = true := by
  induction n using Nat.strong_induction_on with
  | _ n ih =>
    by_cases h : n = 0
    · subst h; simp [natToStrGo]
    · rw [natToStr_core_rec n h]
      intro c hc
      rcases List.mem_append.mp hc with h1 | h1
      · exact ih (n / 10) (Nat.div_lt_self (Nat.pos_of_ne_zero h) (by norm_num)) c h1
      · have : c = Char.ofNat (48 + n % 10) := by simpa using h1
        subst this
        exact digitChar_isDigit _ (Nat.mod_lt _ (by norm_num))

theorem valFold_concat (acc : Nat) (s : Str) (c : Char) :
    valFold acc (s ++ [c]) = (valFold acc s) * 10 + digitVal c := by
  simp [valFold]

theorem natToStr_core_val (n : Nat) : valFold 0 (natToStrGo n n []) = n := by
  induction n using Nat.strong_induction_on with
  | _ n ih =>
    by_cases h : n = 0
    · subst h; simp [natToStrGo, valFold]
    · rw [natToStr_core_rec n h, valFold_concat,
        ih (n / 10) (Nat.div_lt_self (Nat.pos_of_ne_zero h) (by norm_num)),
        digitChar_val _ (Nat.mod_lt _ (by norm_num))]
      omega

theorem natToStr_digits (n : Nat) : ∀ c ∈ natToStr n, c.isDigit = true := by
  unfold natToStr
  by_cases h : n = 0
  · simp [h]
  · simpa [h] using natToStr_core_digits n

theorem natToStr_ne_nil (n : Nat) : natToStr n ≠ [] := by
  unfold natToStr
  by_cases h : n = 0
  · simp [h]
  · rw [if_neg h, natToStr_core_rec n h]
    simp

theorem natToStr_val (n : Nat) : valFold 0 (natToStr n) = n := by
  unfold natToStr
  by_cases h : n = 0
  · simp [h, valFold, digitVal]
  · rw [if_neg h]; exact natToStr_core_val n

theorem isDigit_not_ws (c : Char) (h : c.isDigit = true) : isPyWS c = false := by
  by_contra hws
  have hws' : isPyWS c = true := by
    cases hv : isPyWS c
    · exact absurd hv hws
    · rfl
  unfold isPyWS at hws'
  simp only [Bool.or_eq_true, beq_iff_eq] at hws'
  rcases hws' with (((((h1 | h1) | h1) | h1) | h1) | h1) <;>
    (subst h1; exact absurd h (by decide))

theorem isDigit_not_special (c : Char) (h : c.isDigit = true) :
    c ≠ '.' ∧ c ≠ '-' ∧ c ≠ '+' ∧ c ≠ '_' := by
  refine ⟨?_, ?_, ?_, ?_⟩ <;> (rintro rfl; exact absurd h (by decide))

theorem pyDigitsGo_all_digits (s : Str) : ∀ acc, (∀ c ∈ s, c.isDigit = true) →
    pyDigitsGo acc s = some (valFold acc s) := by
  induction s with
  | nil => intro acc _; simp [pyDigitsGo, valFold]
  | cons c cs ih =>
    intro acc h
    have hc := h c (by simp)
    rw [show valFold acc (c :: cs) = valFold (acc * 10 + digitVal c) cs from by
      simp [valFold]]
    rw [pyDigitsGo.eq_def]
    simp only [hc, if_true]
    exact ih _ (fun d hd => h d (by simp [hd]))

theorem pyDigits_all_digits (c : Char) (cs : Str)
    (h : ∀ d ∈ c :: cs, d.isDigit = true) :
    pyDigits (c :: cs) = some (valFold 0 (c :: cs)) := by
  have hc := h c (by simp)
  rw [show valFold 0 (c :: cs) = valFold (digitVal c) cs from by simp [valFold]]
  rw [pyDigits.eq_def]
  simp only [hc, if_true]
  exact pyDigitsGo_all_digits cs _ (fun d hd => h d (by simp [hd]))

theorem pyInt_natToStr (n : Nat) : pyInt? (natToStr n) = some (n : Int) := by
  have hd := natToStr_digits n
  have hstrip : pyStrip (natToStr n) = natToStr n :=
    pyStrip_eq_self _ (fun c hc => isDigit_not_ws c (hd c hc))
  obtain ⟨c, cs, hcc⟩ : ∃ c cs, natToStr n = c :: cs := by
    cases h : natToStr n with
    | nil => exact absurd h (natToStr_ne_nil n)
    | cons c cs => exact ⟨c, cs, rfl⟩
  have hdig : ∀ d ∈ c :: cs, d.isDigit = true := by
    intro d hdm; exact hd d (by rw [hcc]; exact hdm)
  have hplus : ¬(c = '+') := (isDigit_not_special c (hdig c (by simp))).2.2.1
  have hminus : ¬(c = '-') := (isDigit_not_special c (hdig c (by simp))).2.1
  unfold pyInt?
  rw [hstrip, hcc]
  simp only [pyIntSigned, if_neg hplus, if_neg hminus]
  rw [pyDigits_all_digits c cs hdig]
  have : valFold 0 (c :: cs) = n := by rw [← hcc]; exact natToStr_val n
  simp [this]

theorem splitOnAux_no_sep (sep : Char) (s : Str) : ∀ acc, (∀ c ∈ s, c ≠ sep) →
    splitOnAux sep s acc = [acc.reverse ++ s] := by
  induction s with
  | nil => intro acc _; simp [splitOnAux]
  | cons c cs ih =>
    intro acc h
    simp only [splitOnAux, if_neg (h c (by simp))]
    rw [ih (c :: acc) (fun d hd => h d (by simp [hd]))]
    simp

theorem splitOnAux_sep (sep : Char) (a : Str) : ∀ rest acc, (∀ c ∈ a, c ≠ sep) →
    splitOnAux sep (a ++ sep :: rest) acc =
      (acc.reverse ++ a) :: splitOnAux sep rest [] := by
  induction a with
  | nil => intro rest acc _; simp [splitOnAux]
  | cons c cs ih =>
    intro rest acc h
    have e1 : (c :: cs) ++ sep :: rest = c :: (cs ++ sep :: rest) := rfl
    rw [e1]
    simp only [splitOnAux, if_neg (h c (by simp))]
    rw [ih rest (c :: acc) (fun d hd => h d (by simp [hd]))]
    simp

theorem splitOn_three (A B C : Str) (hA : ∀ c ∈ A, c ≠ '.') (hB : ∀ c ∈ B, c ≠ '.')
    (hC : ∀ c ∈ C, c ≠ '.') :
    splitOn '.' (A ++ '.' :: (B ++ '.' :: C)) = [A, B, C] := by
  unfold splitOn
  rw [splitOnAux_sep '.' A (B ++ '.' :: C) [] hA,
    splitOnAux_sep '.' B C [] hB,
    splitOnAux_no_sep '.' C [] hC]
  simp

theorem splitOnAux_chars (sep : Char) (s : Str) : ∀ acc piece, piece ∈ splitOnAux sep s acc →
    ∀ c ∈ piece, c ∈ s ∨ c ∈ acc := by
  induction s with
  | nil =>
    intro acc piece hp c hc
    simp [splitOnAux] at hp
    subst hp
    exact Or.inr (List.mem_reverse.mp hc)
  | cons b bs ih =>
    intro acc piece hp c hc
    by_cases hb : b = sep
    · simp only [splitOnAux, if_pos hb] at hp
      rcases List.mem_cons.mp hp with h1 | h1
      · subst h1; exact Or.inr (List.mem_reverse.mp hc)
      · rcases ih [] piece h1 c hc with h2 | h2
        · exact Or.inl (by simp [h2])
        · simp at h2
    · simp only [splitOnAux, if_neg hb] at hp
      rcases ih (b :: acc) piece hp c hc with h2 | h2
      · exact Or.inl (by simp [h2])
      · rcases List.mem_cons.mp h2 with h3 | h3
        · exact Or.inl (by simp [h3])
        · exact Or.inr h3

theorem splitOn_chars (sep : Char) (s : Str) (piece : Str) (hp : piece ∈ splitOn sep s) :
    ∀ c ∈ piece, c ∈ s := by
  intro c hc
  rcases splitOnAux_chars sep s [] piece hp c hc with h | h
  · exact h
  · simp at h

theorem takeWhile_and (p q : Char → Bool) (s : Str) :
    (s.takeWhile p).takeWhile q = s.takeWhile (fun c => p c && q c) := by
  induction s with
  | nil => rfl
  | cons c cs ih =>
    by_cases hp : p c
    · by_cases hq : q c
      · simp [List.takeWhile_cons, hp, hq, ih]
      · simp [List.takeWhile_cons, hp, hq]
    · simp [List.takeWhile_cons, hp]

theorem canonVer_parts_no_dot (n : Nat) : ∀ c ∈ natToStr n, c ≠ '.' :=
  fun c hc => (isDigit_not_special c (natToStr_digits n c hc)).1

theorem canonVer_chars (x y z : Nat) : ∀ c ∈ canonVer x y z, c.isDigit = true ∨ c = '.' := by
  intro c hc
  unfold canonVer at hc
  rcases List.mem_append.mp hc with h1 | h1
  · exact Or.inl (natToStr_digits x c h1)
  · rcases List.mem_cons.mp h1 with h2 | h2
    · exact Or.inr h2
    · rcases List.mem_append.mp h2 with h3 | h3
      · exact Or.inl (natToStr_digits y c h3)
      · rcases List.mem_cons.mp h3 with h4 | h4
        · exact Or.inr h4
        · exact Or.inl (natToStr_digits z c h4)

theorem canonVer_core (x y z : Nat) : version_core (canonVer x y z) = canonVer x y z := by
  unfold version_core
  have h1 : (canonVer x y z).takeWhile (fun c => c != '-') = canonVer x y z := by
    apply List.takeWhile_eq_self_iff.mpr
    intro c hc
    simp only [bne_iff_ne, ne_eq]
    rcases canonVer_chars x y z c hc with h | h
    · exact (isDigit_not_special c h).2.1
    · subst h; decide
  rw [h1]
  apply List.takeWhile_eq_self_iff.mpr
  intro c hc
  simp only [bne_iff_ne, ne_eq]
  rcases canonVer_chars x y z c hc with h | h
  · exact (isDigit_not_special c h).2.2.1
  · subst h; decide

theorem parse_version_canon (x y z : Nat) :
    parse_version (canonVer x y z) = some ((x : Int), (y : Int), (z : Int)) := by
  unfold parse_version
  rw [canonVer_core,
    show canonVer x y z = natToStr x ++ '.' :: (natToStr y ++ '.' :: natToStr z) from rfl,
    splitOn_three (natToStr x) (natToStr y) (natToStr z)
      (canonVer_parts_no_dot x) (canonVer_parts_no_dot y) (canonVer_parts_no_dot z)]
  simp [pyInt_natToStr]

theorem intToStr_ofNat (n : Nat) : intToStr ((n : Nat) : Int) = natToStr n := by
  unfold intToStr
  rw [if_neg (Int.not_lt.mpr (Int.natCast_nonneg n))]
  simp

theorem increment_canon (x y z : Nat) :
    increment_patch_version (canonVer x y z) = some (canonVer x y (z + 1)) := by
  unfold increment_patch_version
  rw [parse_version_canon]
  have hz : ((z : Int) + 1) = (((z + 1 : Nat) : Nat) : Int) := by push_cast; ring
  simp only [Option.map_some']
  congr 1
  rw [hz, intToStr_ofNat, intToStr_ofNat, intToStr_ofNat]
  simp [canonVer, List.append_assoc]

theorem pyInt_nonneg (s : Str) (hs : '-' ∉ s) (i : Int) (hi : pyInt? s = some i) :
    0 ≤ i := by
  unfold pyInt? at hi
  cases hstrip : pyStrip s with
  | nil => rw [hstrip] at hi; simp [pyIntSigned] at hi
  | cons c rest =>
    rw [hstrip] at hi
    simp only [pyIntSigned] at hi
    have hc : ¬(c = '-') := by
      intro h
      exact hs (h ▸ pyStrip_subset s c (by rw [hstrip]; simp))
    by_cases hp : c = '+'
    · rw [if_pos hp] at hi
      cases hd : pyDigits rest with
      | none => rw [hd] at hi; simp at hi
      | some m => rw [hd] at hi; simp at hi; omega
    · rw [if_neg hp, if_neg hc] at hi
      cases hd : pyDigits (c :: rest) with
      | none => rw [hd] at hi; simp at hi
      | some m => rw [hd] at hi; simp at hi; omega

theorem version_core_no_minus (s : Str) : '-' ∉ version_core s := by
  intro h
  unfold version_core at h
  have h2 : '-' ∈ s.takeWhile (fun c => c != '-') := (List.takeWhile_prefix _).subset h
  have h3 := List.mem_takeWhile_imp h2
  simp at h3

theorem parse_version_nonneg (s : Str) (x y z : Int)
    (h : parse_version s = some (x, y, z)) : 0 ≤ x ∧ 0 ≤ y ∧ 0 ≤ z := by
  have hno : ∀ piece ∈ splitOn '.' (version_core s), '-' ∉ piece := by
    intro piece hp hmem
    exact version_core_no_minus s (splitOn_chars '.' (version_core s) piece hp '-' hmem)
  unfold parse_version at h
  split at h
  · rename_i a b c heq
    split at h
    · rename_i x0 y0 z0 h4 h5 h6
      simp only [Option.some.injEq, Prod.mk.injEq] at h
      obtain ⟨rfl, rfl, rfl⟩ := h
      refine ⟨?_, ?_, ?_⟩
      · exact pyInt_nonneg a (hno a (by rw [heq]; simp)) x0 h4
      · exact pyInt_nonneg b (hno b (by rw [heq]; simp)) y0 h5
      · exact pyInt_nonneg c (hno c (by rw [heq]; simp)) z0 h6
    · simp at h
  · simp at h

theorem increment_output_canon (s t : Str) (h : increment_patch_version s = some t) :
    ∃ x y z : Int, parse_version s = some (x, y, z) ∧ 0 ≤ x ∧ 0 ≤ y ∧ 0 ≤ z ∧
      t = canonVer x.toNat y.toNat (z.toNat + 1) := by
  unfold increment_patch_version at h
  cases hp : parse_version s with
  | none => rw [hp] at h; simp at h
  | some v =>
    obtain ⟨x, y, z⟩ := v
    rw [hp] at h
    simp only [Option.map_some', Option.some.injEq] at h
    obtain ⟨hx, hy, hz⟩ := parse_version_nonneg s x y z hp
    refine ⟨x, y, z, rfl, hx, hy, hz, ?_⟩
    rw [← h]
    have e1 : intToStr x = natToStr x.toNat := by
      conv_lhs => rw [(Int.toNat_of_nonneg hx).symm]
      exact intToStr_ofNat x.toNat
    have e2 : intToStr y = natToStr y.toNat := by
      conv_lhs => rw [(Int.toNat_of_nonneg hy).symm]
      exact intToStr_ofNat y.toNat
    have e3 : intToStr (z + 1) = natToStr (z.toNat + 1) := by
      have hz1 : z + 1 = (((z.toNat + 1 : Nat) : Nat) : Int) := by
        push_cast [Int.toNat_of_nonneg hz]; ring
      rw [hz1]
      exact intToStr_ofNat (z.toNat + 1)
    rw [e1, e2, e3]
    simp [canonVer, List.append_assoc]

/-- C1: for every version string of the shape `"x.y.z"` with three
non-negative integer components, `increment_patch_version` returns
`"x.y.(z+1)"`: the patch component is incremented by exactly one and the
major and minor components are returned unchanged. -/
theorem claim_c1 (x y z : Nat) :
    increment_patch_version (canonVer x y z) = some (canonVer x y (z + 1)) :=
  increment_canon x y z

/-- C9: `increment_patch_version` never returns its input (it always
increments), and applying it twice to `"x.y.z"` yields `"x.y.(z+2)"`. -/
theorem claim_c9 :
    (∀ s t : Str, increment_patch_version s = some t → t ≠ s) ∧
    (∀ x y z : Nat,
      (increment_patch_version (canonVer x y z)).bind increment_patch_version =
        some (canonVer x y (z + 2))) := by
  constructor
  · intro s t h hts
    obtain ⟨x, y, z, hp, hx, hy, hz, ht⟩ := increment_output_canon s t h
    have hs : s = canonVer x.toNat y.toNat (z.toNat + 1) := by rw [← hts]; exact ht
    have hpc := parse_version_canon x.toNat y.toNat (z.toNat + 1)
    rw [← hs, hp] at hpc
    simp only [Option.some.injEq, Prod.mk.injEq] at hpc
    obtain ⟨-, -, hzz⟩ := hpc
    omega
  · intro x y z
    rw [increment_canon x y z]
    show increment_patch_version (canonVer x y (z + 1)) = some (canonVer x y (z + 2))
    rw [increment_canon x y (z + 1)]

/-- Witness for C9 at a concrete input: `"1.2.3"` bumps to `"1.2.4"`, which
differs from the input. -/
theorem claim_c9_witness :
    increment_patch_version (("1.2.3").data) = some (("1.2.4").data) ∧
    ("1.2.4").data ≠ ("1.2.3").data :=
  ⟨by decide, claim_c9.1 (("1.2.3").data) (("1.2.4").data) (by decide)⟩

/-- C5 as stated over the embedded code: `parse_version` fails exactly when
the metadata-stripped remainder is not three dot-separated `int()`-parseable
components, and otherwise returns those components as integers. -/
theorem claim_c5 (s : Str) :
    (parse_version s = none ↔
      ¬((strippedParts s).length = 3 ∧ ∀ p ∈ strippedParts s, (pyInt? p).isSome = true)) ∧
    (∀ x y z : Int, parse_version s = some (x, y, z) →
      ∃ a b c, strippedParts s = [a, b, c] ∧ pyInt? a = some x ∧ pyInt? b = some y ∧
        pyInt? c = some z) := by
  have hsp : strippedParts s = splitOn '.' (version_core s) := by
    unfold strippedParts version_core
    rw [takeWhile_and]
  unfold parse_version
  rw [hsp]
  cases h3 : splitOn '.' (version_core s) with
  | nil => simp
  | cons a l1 =>
    cases l1 with
    | nil => simp
    | cons b l2 =>
      cases l2 with
      | nil => simp
      | cons c l3 =>
        cases l3 with
        | cons d l4 =>
          constructor
          · constructor
            · intro _ hcon
              obtain ⟨hlen, -⟩ := hcon
              simp at hlen
            · intro _; rfl
          · intro x y z h; simp at h
        | nil =>
          cases h4 : pyInt? a with
          | none => simp [h4]
          | some x0 =>
            cases h5 : pyInt? b with
            | none => simp [h4, h5]
            | some y0 =>
              cases h6 : pyInt? c with
              | none => simp [h4, h5, h6]
              | some z0 =>
                constructor
                · simp [h4, h5, h6]
                · intro x y z h
                  simp [h4, h5, h6] at h
                  obtain ⟨rfl, rfl, rfl⟩ := h
                  exact ⟨a, b, c, rfl, h4, h5, h6⟩

/-- Witness for C5 at a concrete input: `"1.2"` has only two components, so
`parse_version` raises. -/
theorem claim_c5_witness : parse_version (("1.2").data) = none :=
  (claim_c5 (("1.2").data)).1.mpr (by decide)

/-- Counterexample to C10 as stated: at the claim's own input `"1.2.-3"`,
`parse_version` raises (the `-` starts metadata stripping, leaving the empty
third component `""`), even though Python `int()` itself accepts `"-3"`. -/
theorem claim_c10_cex :
    parse_version (("1.2.-3").data) = none ∧ pyInt? (("-3").data) = some (-3) :=
  ⟨by decide, by decide⟩

/-- C10 amended: components are parsed with Python `int()` semantics after
metadata stripping, so whitespace padding and underscore separators are
accepted; but a returned component can never be negative, because everything
from the first `-` on is stripped before splitting. -/
theorem claim_c10 :
    parse_version ((" 1 . 2 . 3_0 ").data) = some (1, 2, 30) ∧
    (∀ s : Str, ∀ x y z : Int, parse_version s = some (x, y, z) →
      0 ≤ x ∧ 0 ≤ y ∧ 0 ≤ z) :=
  ⟨by decide, parse_version_nonneg⟩

/-- Witness for C10 amended at a concrete input. -/
theorem claim_c10_witness : (0 : Int) ≤ 1 ∧ (0 : Int) ≤ 2 ∧ (0 : Int) ≤ 3 :=
  claim_c10.2 (("1.2.3").data) 1 2 3 (by decide)

/-- C4 amended: `get_changed_packages` marks every candidate package
directory that is a non-root, non-ignored ancestor of some changed file, not
only the nearest enclosing one. -/
theorem mem_get_changed_packages (staged : List PathT) (ignore : PathT → Bool)
    (rootDir : PathT) (pkgs : List PathT) (d : PathT) :
    d ∈ get_changed_packages staged ignore rootDir pkgs ↔
      d ∈ pkgs ∧ d ≠ rootDir ∧ ignore d = false ∧ ∃ f ∈ staged, d.isPrefixOf f = true := by
  unfold get_changed_packages
  rw [List.mem_filter]
  simp only [Bool.and_eq_true, Bool.not_eq_true', beq_eq_false_iff_ne, ne_eq,
    List.any_eq_true]
  tauto

theorem claim_c4 (staged : List PathT) (ignore : PathT → Bool) (rootDir : PathT)
    (pkgs : List PathT) (d : PathT) :
    d ∈ get_changed_packages staged ignore rootDir pkgs ↔
      d ∈ pkgs ∧ d ≠ rootDir ∧ ignore d = false ∧ ∃ f ∈ staged, d.isPrefixOf f = true :=
  mem_get_changed_packages staged ignore rootDir pkgs d

/-- Counterexample to C4 as stated: a changed file inside the nested package
`a/b` marks the outer package `a` as changed as well, not only the nearest
enclosing package `a/b`. -/
theorem claim_c4_cex :
    [("a").data] ∈ get_changed_packages cexNestedStaged (fun _ => false) [] cexNestedPkgs ∧
    [("a").data, ("b").data] ∈
      get_changed_packages cexNestedStaged (fun _ => false) [] cexNestedPkgs ∧
    ([("a").data, ("b").data]).isPrefixOf [("a").data, ("b").data, ("x.py").data] = true ∧
    ¬([("a").data] = [("a").data, ("b").data]) := by
  refine ⟨?_, ?_, ?_, ?_⟩ <;> decide

/-- Witness for C4 amended at a concrete input. -/
theorem claim_c4_witness :
    [("a").data] ∈ get_changed_packages cexNestedStaged (fun _ => false) [] cexNestedPkgs :=
  (claim_c4 cexNestedStaged (fun _ => false) [] cexNestedPkgs [("a").data]).mpr (by decide)

/-- C7: the root manifest's own directory is never returned by
`get_changed_packages`, whatever the changeset and the ignore patterns. -/
theorem claim_c7 (staged : List PathT) (ignore : PathT → Bool) (rootDir : PathT)
    (pkgs : List PathT) : rootDir ∉ get_changed_packages staged ignore rootDir pkgs := by
  intro h
  unfold get_changed_packages at h
  have h2 := (List.mem_filter.mp h).2
  simp at h2

/-- Witness for C7 at a concrete input: changed files directly under the
root directory do not put the root directory in the result. -/
theorem claim_c7_witness :
    [("r").data] ∉ get_changed_packages [[("r").data, ("f.py").data]] (fun _ => false)
      [("r").data] [[("r").data]] :=
  claim_c7 [[("r").data, ("f.py").data]] (fun _ => false) [("r").data] [[("r").data]]

/-- C2 amended: a changed package whose manifest is in the changeset, whose
staged-diff version and HEAD version are both readable and differ, and whose
current on-disk version is readable, is acknowledged as a manual bump: no
write, no re-stage, recorded as handled. -/
theorem claim_c2 (e : Env) (changed : List PathT) (d : PathT) (dv hv cur : Str)
    (hfs : e.fsExists (manifestOf d) = true)
    (hin : manifestOf d ∈ changed)
    (hdv : get_version_from_diff e (manifestOf d) = some dv)
    (hhv : headVersionOf e (manifestOf d) = some hv)
    (hneq : dv ≠ hv)
    (hcur : e.diskVersion (manifestOf d) = some cur) :
    processPackage e changed d =
      ⟨[(CallKind.diffCachedFile (manifestOf d), true),
        (CallKind.showFile (manifestOf d), true)],
        [Event.handledManual d hv dv], true, false⟩ := by
  obtain ⟨out1, h1⟩ : ∃ out, e.gitDiffFile (manifestOf d) = GitRes.ok out := by
    unfold get_version_from_diff at hdv
    cases hg : e.gitDiffFile (manifestOf d) with
    | fail => rw [hg] at hdv; simp at hdv
    | ok o => exact ⟨o, rfl⟩
  obtain ⟨out2, h2⟩ : ∃ out, e.gitShow (manifestOf d) = GitRes.ok out := by
    unfold headVersionOf at hhv
    cases hg : e.gitShow (manifestOf d) with
    | fail => rw [hg] at hhv; simp at hhv
    | ok o => exact ⟨o, rfl⟩
  unfold processPackage
  simp [h1, h2, hcur, hfs, hdv, hhv, hin, hneq]

/-- Counterexample to C2 as stated: with the staged version `2.0.0` differing
from HEAD's `1.0.0` but the current on-disk version unreadable, the package
is skipped with a warning and never recorded as handled. -/
theorem claim_c2_cex :
    manifestOf [("a").data] ∈ [manifestOf [("a").data]] ∧
    get_version_from_diff (envManual none) (manifestOf [("a").data]) =
      some (("2.0.0").data) ∧
    headVersionOf (envManual none) (manifestOf [("a").data]) = some (("1.0.0").data) ∧
    ("2.0.0").data ≠ ("1.0.0").data ∧
    (processPackage (envManual none) [manifestOf [("a").data]] [("a").data]).handled =
      false ∧
    (processPackage (envManual none) [manifestOf [("a").data]] [("a").data]).events =
      [Event.skippedNoVersion [("a").data]] := by
  refine ⟨?_, ?_, ?_, ?_, ?_, ?_⟩ <;> decide

/-- Witness for C2 amended at a concrete input: with the current version
readable, the same situation is acknowledged as a manual bump. -/
theorem claim_c2_witness :
    processPackage (envManual (some (("1.0.0").data))) [manifestOf [("a").data]]
        [("a").data] =
      ⟨[(CallKind.diffCachedFile (manifestOf [("a").data]), true),
        (CallKind.showFile (manifestOf [("a").data]), true)],
        [Event.handledManual [("a").data] (("1.0.0").data) (("2.0.0").data)],
        true, false⟩ :=
  claim_c2 (envManual (some (("1.0.0").data))) [manifestOf [("a").data]] [("a").data]
    (("2.0.0").data) (("1.0.0").data) (("1.0.0").data)
    (by decide) (by decide) (by decide) (by decide) (by decide) (by decide)

theorem processPackage_no_root (e : Env) (ch : List PathT) (d : PathT) :
    ∀ ev ∈ (processPackage e ch d).events, isRootEv ev = false := by
  intro ev hev
  unfold processPackage at hev
  simp only [] at hev
  revert hev
  repeat' split
  all_goals intro hev
  all_goals simp only [List.mem_cons, List.not_mem_nil, or_false] at hev
  all_goals
    first
      | exact hev.elim
      | (rcases hev with rfl | rfl <;> rfl)

theorem processPackage_events_shape (e : Env) (ch : List PathT) (d d' : PathT) :
    (∀ o n, Event.versionWritten d' o n ∈ (processPackage e ch d).events → d' = d) ∧
    (Event.fileStaged d' ∈ (processPackage e ch d).events → d' = d) ∧
    (Event.stageFailed d' ∈ (processPackage e ch d).events → d' = d) := by
  refine ⟨fun o n h => ?_, fun h => ?_, fun h => ?_⟩ <;>
    (unfold processPackage at h
     simp only [] at h
     revert h
     repeat' split
     all_goals intro h
     all_goals simp only [List.mem_cons, List.not_mem_nil, or_false] at h
     all_goals simp_all)

theorem callsOkB_iff (l : List (CallKind × Bool)) :
    callsOkB l = true ↔ ∀ k r, (k, r) ∈ l → isAddCall k = true ∨ r = true := by
  unfold callsOkB
  rw [List.all_eq_true]
  constructor
  · intro h k r hm
    have h2 := h (k, r) hm
    simp only [Bool.or_eq_true] at h2
    exact h2
  · intro h kr hm
    obtain ⟨k, r⟩ := kr
    simp only [Bool.or_eq_true]
    exact h k r hm

theorem callsOkB_append (l1 l2 : List (CallKind × Bool)) :
    callsOkB (l1 ++ l2) = (callsOkB l1 && callsOkB l2) := by
  simp [callsOkB]

theorem fatalCalls_single (k : CallKind) (h : isAddCall k = false) :
    FatalCalls [(k, false)] := ⟨[], k, rfl, h, rfl⟩

theorem fatalCalls_cons_true (k0 : CallKind) (l : List (CallKind × Bool))
    (h : FatalCalls l) : FatalCalls ((k0, true) :: l) := by
  obtain ⟨g, k, he, ha, hg⟩ := h
  refine ⟨(k0, true) :: g, k, by rw [he]; rfl, ha, ?_⟩
  simp only [callsOkB, List.all_cons, Bool.or_true, Bool.true_and]
  simpa [callsOkB] using hg

theorem fatalCalls_append (l1 l2 : List (CallKind × Bool)) (h1 : callsOkB l1 = true)
    (h2 : FatalCalls l2) : FatalCalls (l1 ++ l2) := by
  obtain ⟨g, k, he, ha, hg⟩ := h2
  exact ⟨l1 ++ g, k, by rw [he, List.append_assoc], ha,
    by simp [callsOkB_append, h1, hg]⟩

theorem changedFilesCall_not_add (e : Env) : isAddCall (changedFilesCall e).1 = false := by
  unfold changedFilesCall
  repeat' split
  all_goals rfl

theorem processPackage_calls (e : Env) (ch : List PathT) (d : PathT) :
    ((processPackage e ch d).fatal = false →
      callsOkB (processPackage e ch d).calls = true) ∧
    ((processPackage e ch d).fatal = true →
      callsOkB (processPackage e ch d).calls = true ∨
        FatalCalls (processPackage e ch d).calls) := by
  unfold processPackage
  simp only []
  repeat' split
  all_goals refine ⟨fun hf => ?_, fun hf => ?_⟩
  all_goals
    first
      | (simp at hf; done)
      | (simp [callsOkB, isAddCall]; done)
      | (left; simp [callsOkB, isAddCall]; done)
      | (right
         first
           | exact fatalCalls_single _ rfl
           | exact fatalCalls_cons_true _ _ (fatalCalls_single _ rfl))

theorem processRoot_no_pkg (e : Env) (ch : List PathT) (d' : PathT) :
    (∀ o n, Event.versionWritten d' o n ∉ (processRoot e ch).events) ∧
    (Event.fileStaged d' ∉ (processRoot e ch).events) ∧
    (Event.stageFailed d' ∉ (processRoot e ch).events) := by
  refine ⟨fun o n h => ?_, fun h => ?_, fun h => ?_⟩ <;>
    (unfold processRoot at h
     simp only [] at h
     revert h
     repeat' split
     all_goals intro h
     all_goals simp_all)

theorem processRoot_calls (e : Env) (ch : List PathT) :
    ((processRoot e ch).fatal = false → callsOkB (processRoot e ch).calls = true) ∧
    ((processRoot e ch).fatal = true →
      callsOkB (processRoot e ch).calls = true ∨ FatalCalls (processRoot e ch).calls) := by
  unfold processRoot
  simp only []
  repeat' split
  all_goals refine ⟨fun hf => ?_, fun hf => ?_⟩
  all_goals
    first
      | (simp at hf; done)
      | (simp [callsOkB, isAddCall]; done)
      | (left; simp [callsOkB, isAddCall]; done)
      | (right
         first
           | exact fatalCalls_single _ rfl
           | exact fatalCalls_cons_true _ _ (fatalCalls_single _ rfl))

theorem runLoop_events (e : Env) (ch : List PathT) (ds : List PathT) :
    ∀ ev ∈ (runLoop e ch ds).events, ∃ d ∈ ds, ev ∈ (processPackage e ch d).events := by
  induction ds with
  | nil => intro ev hev; simp [runLoop] at hev
  | cons d ds ih =>
    intro ev hev
    unfold runLoop at hev
    by_cases hf : (processPackage e ch d).fatal = true
    · rw [if_pos hf] at hev
      refine ⟨d, by simp, ?_⟩
      simpa using hev
    · rw [if_neg hf] at hev
      have hev2 : ev ∈ (processPackage e ch d).events ++ (runLoop e ch ds).events := by
        simpa using hev
      rcases List.mem_append.mp hev2 with h1 | h1
      · exact ⟨d, by simp, h1⟩
      · obtain ⟨d0, hd0, hm⟩ := ih ev h1
        exact ⟨d0, by simp [hd0], hm⟩

theorem runLoop_calls (e : Env) (ch : List PathT) (ds : List PathT) :
    ((runLoop e ch ds).fatal = false → callsOkB (runLoop e ch ds).calls = true) ∧
    ((runLoop e ch ds).fatal = true →
      callsOkB (runLoop e ch ds).calls = true ∨ FatalCalls (runLoop e ch ds).calls) := by
  induction ds with
  | nil => constructor <;> (intro h; simp_all [runLoop, callsOkB])
  | cons d ds ih =>
    obtain ⟨ih1, ih2⟩ := ih
    obtain ⟨p1, p2⟩ := processPackage_calls e ch d
    unfold runLoop
    by_cases hf : (processPackage e ch d).fatal = true
    · rw [if_pos hf]
      constructor
      · intro h; simp at h
      · intro _
        rcases p2 hf with hc | hc
        · left; simpa using hc
        · right; simpa using hc
    · rw [if_neg hf]
      have hok := p1 (by simpa using hf)
      constructor
      · intro h
        have hr : (runLoop e ch ds).fatal = false := by simpa using h
        have := ih1 hr
        simp only []
        simp [callsOkB_append, hok, this]
      · intro h
        have hr : (runLoop e ch ds).fatal = true := by simpa using h
        rcases ih2 hr with hc | hc
        · left; simp [callsOkB_append, hok, hc]
        · right
          have : FatalCalls ((processPackage e ch d).calls ++ (runLoop e ch ds).calls) :=
            fatalCalls_append _ _ hok hc
          simpa using this

theorem loop_no_rootWritten (e : Env) (ch : List PathT) (ds : List PathT) (o n : Str) :
    Event.rootWritten o n ∉ (runLoop e ch ds).events := by
  intro hmem
  obtain ⟨d0, -, hin⟩ := runLoop_events e ch ds _ hmem
  have h2 := processPackage_no_root e ch d0 _ hin
  simp [isRootEv] at h2

theorem callsOkB_single_true (k : CallKind) : callsOkB [(k, true)] = true := by
  simp [callsOkB]

theorem callsOkB_cons_true_eq (k : CallKind) (l : List (CallKind × Bool)) :
    callsOkB ((k, true) :: l) = callsOkB l := by
  simp [callsOkB]

theorem mainRun_calls (e : Env) :
    ((mainRun e).exit = 0 ∧ callsOkB (mainRun e).calls = true) ∨
    ((mainRun e).exit = 1 ∧
      (callsOkB (mainRun e).calls = true ∨ FatalCalls (mainRun e).calls)) := by
  unfold mainRun
  simp only []
  split
  · right; exact ⟨rfl, Or.inl rfl⟩
  · split
    · rename_i ck hck
      right
      refine ⟨rfl, Or.inr (fatalCalls_single ck ?_)⟩
      have h2 := changedFilesCall_not_add e
      rw [hck] at h2
      exact h2
    · rename_i ck out hck
      split
      · left; exact ⟨rfl, by simp [callsOkB]⟩
      · split
        · left; exact ⟨rfl, by simp [callsOkB]⟩
        · split
          · rename_i hlo
            right
            refine ⟨rfl, ?_⟩
            rcases (runLoop_calls e _ _).2 hlo with hc | hc
            · left; simp [callsOkB_append, callsOkB_single_true, callsOkB_cons_true_eq, hc]
            · right
              have h4 := fatalCalls_append [(ck, true)] _ (by simp [callsOkB]) hc
              simpa using h4
          · split
            · split
              · rename_i hnf hcond hrf
                right
                refine ⟨rfl, ?_⟩
                have hlo := (runLoop_calls e _ _).1 (by simpa using hnf)
                rcases (processRoot_calls e _).2 hrf with hc | hc
                · left; simp [callsOkB_append, callsOkB_single_true, callsOkB_cons_true_eq, hlo, hc]
                · right
                  have h3 := fatalCalls_append _ _ hlo hc
                  have h4 := fatalCalls_append [(ck, true)] _ (by simp [callsOkB]) h3
                  simpa [List.append_assoc] using h4
              · rename_i hnf hcond hrf
                left
                refine ⟨rfl, ?_⟩
                have hlo := (runLoop_calls e _ _).1 (by simpa using hnf)
                have hro := (processRoot_calls e _).1 (by simpa using hrf)
                simp [callsOkB_append, callsOkB_single_true, callsOkB_cons_true_eq, hlo, hro]
            · rename_i hnf hcond
              left
              refine ⟨rfl, ?_⟩
              have hlo := (runLoop_calls e _ _).1 (by simpa using hnf)
              simp [callsOkB_append, callsOkB_single_true, callsOkB_cons_true_eq, hlo]

theorem mainRun_rootReached (e : Env) :
    (mainRun e).rootReached = true ↔
      ((mainRun e).handled ≠ [] ∧ e.dontBumpRoot = false ∧
        (mainRun e).loopFatal = false) := by
  unfold mainRun
  simp only []
  repeat' split
  all_goals simp_all

theorem mainRun_rootWritten_cond (e : Env) (o n : Str)
    (h : Event.rootWritten o n ∈ (mainRun e).events) :
    (mainRun e).handled ≠ [] ∧ e.dontBumpRoot = false := by
  unfold mainRun at h ⊢
  simp only [] at h ⊢
  repeat' split
  all_goals simp_all [loop_no_rootWritten]

theorem mem_insertPath (x y : PathT) (l : List PathT) :
    y ∈ insertPath x l ↔ y = x ∨ y ∈ l := by
  induction l with
  | nil => simp [insertPath]
  | cons z zs ih =>
    unfold insertPath
    by_cases h : pathLe x z = true
    · rw [if_pos h]; simp
    · rw [if_neg h]
      simp only [List.mem_cons, ih]
      tauto

theorem mem_sortPaths (x : PathT) (l : List PathT) : x ∈ sortPaths l ↔ x ∈ l := by
  induction l with
  | nil => simp [sortPaths]
  | cons z zs ih => simp [sortPaths, mem_insertPath, ih]

theorem loop_event_origin (e : Env) (ch : List PathT) (ds : List PathT) (d : PathT)
    (h : (∃ o n, Event.versionWritten d o n ∈ (runLoop e ch ds).events) ∨
      Event.fileStaged d ∈ (runLoop e ch ds).events ∨
      Event.stageFailed d ∈ (runLoop e ch ds).events) :
    d ∈ ds := by
  rcases h with ⟨o, n, hm⟩ | hm | hm
  · obtain ⟨d0, hd0, hin⟩ := runLoop_events e ch ds _ hm
    have hdd := (processPackage_events_shape e ch d0 d).1 o n hin
    subst hdd; exact hd0
  · obtain ⟨d0, hd0, hin⟩ := runLoop_events e ch ds _ hm
    have hdd := (processPackage_events_shape e ch d0 d).2.1 hin
    subst hdd; exact hd0
  · obtain ⟨d0, hd0, hin⟩ := runLoop_events e ch ds _ hm
    have hdd := (processPackage_events_shape e ch d0 d).2.2 hin
    subst hdd; exact hd0

theorem mainRun_events_sub (e : Env) (ev : Event) (hev : ev ∈ (mainRun e).events) :
    ev ∈ (runLoop e (changedPathsOf e)
        (sortPaths (get_changed_packages (changedPathsOf e) e.ignore
          e.rootManifest.dropLast e.packageDirs))).events ∨
    ev ∈ (processRoot e (changedPathsOf e)).events := by
  revert hev
  unfold mainRun
  simp only []
  split
  · intro hev; simp at hev
  · split
    · intro hev; simp at hev
    · rename_i ck out hck
      have hcp : changedPathsOf e = changedOf out := by
        unfold changedPathsOf; rw [hck]
      rw [hcp]
      split
      · intro hev; simp at hev
      · split
        · intro hev; simp at hev
        · split
          · intro hev
            left; simpa using hev
          · split
            · split
              · intro hev
                have h2 : ev ∈ (runLoop e (changedOf out)
                    (sortPaths (get_changed_packages (changedOf out) e.ignore
                      e.rootManifest.dropLast e.packageDirs))).events ++
                    (processRoot e (changedOf out)).events := by simpa using hev
                exact List.mem_append.mp h2
              · intro hev
                have h2 : ev ∈ (runLoop e (changedOf out)
                    (sortPaths (get_changed_packages (changedOf out) e.ignore
                      e.rootManifest.dropLast e.packageDirs))).events ++
                    (processRoot e (changedOf out)).events := by simpa using hev
                exact List.mem_append.mp h2
            · intro hev
              left; simpa using hev

theorem append_singleton_decomp {α : Type} (G : List α) (x y : α) :
    ∀ pre post : List α, G ++ [x] = pre ++ y :: post → post = [] ∨ y ∈ G := by
  induction G with
  | nil =>
    intro pre post h
    cases pre with
    | nil =>
      rw [List.nil_append, List.nil_append] at h
      injection h with h1 h2
      exact Or.inl h2.symm
    | cons p pre' =>
      rw [List.nil_append, List.cons_append] at h
      injection h with h1 h2
      exact absurd h2.symm (by simp)
  | cons g G' ih =>
    intro pre post h
    cases pre with
    | nil =>
      rw [List.cons_append, List.nil_append] at h
      injection h with h1 h2
      exact Or.inr (by rw [← h1]; simp)
    | cons p pre' =>
      rw [List.cons_append, List.cons_append] at h
      injection h with h1 h2
      rcases ih pre' post h2 with hp | hm
      · exact Or.inl hp
      · exact Or.inr (List.mem_cons_of_mem g hm)

/-- C3 amended: the root manifest is auto-bump-written only when at least one
subpackage was handled and root bumping is enabled; and the root-propagation
block runs exactly when some subpackage was handled, root bumping is enabled,
and the package loop did not die fatally (when it runs, the root may still go
unwritten: manual root bump, unreadable root version, or write failure). -/
theorem claim_c3 :
    (∀ e : Env, ∀ o n : Str, Event.rootWritten o n ∈ (mainRun e).events →
      (mainRun e).handled ≠ [] ∧ e.dontBumpRoot = false) ∧
    (∀ e : Env, (mainRun e).rootReached = true ↔
      ((mainRun e).handled ≠ [] ∧ e.dontBumpRoot = false ∧
        (mainRun e).loopFatal = false)) :=
  ⟨mainRun_rootWritten_cond, mainRun_rootReached⟩

/-- Counterexample to C3 as stated: package `a` is bumped and root bumping is
enabled, yet the root manifest is not bumped, because its current version is
unreadable; so "bumped iff some subpackage was handled and not disabled"
fails in the right-to-left direction. -/
theorem claim_c3_cex :
    (mainRun envRootless).handled = [[("a").data]] ∧
    envRootless.dontBumpRoot = false ∧
    (mainRun envRootless).rootReached = true ∧
    (mainRun envRootless).events.all (fun ev => !(isRootWrittenEv ev)) = true := by
  refine ⟨?_, ?_, ?_, ?_⟩ <;> decide

/-- Witness for C3 amended at a concrete input. -/
theorem claim_c3_witness : (mainRun envRootless).rootReached = true :=
  (claim_c3.2 envRootless).mpr ⟨by decide, by decide, by decide⟩

/-- C6 amended: a run that exits 0 absorbed no git failure other than from
`git add` (whose failure `stage_file` turns into a warning), and any failed
non-add git call is the last call made, the run exiting with code 1. -/
theorem claim_c6 :
    (∀ e : Env, (mainRun e).exit = 0 → ∀ k r, (k, r) ∈ (mainRun e).calls →
      isAddCall k = true ∨ r = true) ∧
    (∀ e : Env, ∀ pre post : List (CallKind × Bool), ∀ k : CallKind,
      (mainRun e).calls = pre ++ (k, false) :: post → isAddCall k = false →
      post = [] ∧ (mainRun e).exit = 1) := by
  constructor
  · intro e he k r hm
    rcases mainRun_calls e with ⟨h0, hok⟩ | ⟨h1, -⟩
    · exact (callsOkB_iff _).mp hok k r hm
    · rw [he] at h1; exact absurd h1 (by norm_num)
  · intro e pre post k hdec hnadd
    rcases mainRun_calls e with ⟨h0, hok⟩ | ⟨h1, hc⟩
    · have hm : (k, false) ∈ (mainRun e).calls := by rw [hdec]; simp
      rcases (callsOkB_iff _).mp hok k false hm with ha | hb
      · rw [ha] at hnadd; exact absurd hnadd (by simp)
      · exact absurd hb (by simp)
    · rcases hc with hok | hfc
      · have hm : (k, false) ∈ (mainRun e).calls := by rw [hdec]; simp
        rcases (callsOkB_iff _).mp hok k false hm with ha | hb
        · rw [ha] at hnadd; exact absurd hnadd (by simp)
        · exact absurd hb (by simp)
      · obtain ⟨g, k0, he2, ha0, hg⟩ := hfc
        rw [he2] at hdec
        rcases append_singleton_decomp g (k0, false) (k, false) pre post hdec with hp | hm
        · exact ⟨hp, h1⟩
        · rcases (callsOkB_iff _).mp hg k false hm with ha | hb
          · rw [ha] at hnadd; exact absurd hnadd (by simp)
          · exact absurd hb (by simp)

/-- Counterexample to C6 as stated: the `git add` of package `a` exits
non-zero, yet the run continues (package `b` and the root are still queried,
written and staged) and the process exits 0. -/
theorem claim_c6_cex :
    (mainRun envStageFail).exit = 0 ∧
    (mainRun envStageFail).calls =
      [(CallKind.diffCached, true),
       (CallKind.diffCachedFile (manifestOf [("a").data]), true),
       (CallKind.showFile (manifestOf [("a").data]), true),
       (CallKind.add (manifestOf [("a").data]), false),
       (CallKind.diffCachedFile (manifestOf [("b").data]), true),
       (CallKind.showFile (manifestOf [("b").data]), true),
       (CallKind.add (manifestOf [("b").data]), true),
       (CallKind.diffCachedFile [pyTomlName], true),
       (CallKind.showFile [pyTomlName], true),
       (CallKind.add [pyTomlName], true)] := by
  refine ⟨?_, ?_⟩ <;> decide

/-- Witness for C6 amended at a concrete input: a failed initial
`git diff --cached` is the last call and the run exits 1. -/
theorem claim_c6_witness :
    ([] : List (CallKind × Bool)) = [] ∧ (mainRun envGitFail).exit = 1 :=
  claim_c6.2 envGitFail [] [] CallKind.diffCached (by decide) (by decide)

/-- C8: only a package directory with at least one changed path under it can
have its manifest written or (attempted to be) re-staged by the package
loop. -/
theorem claim_c8 (e : Env) (d : PathT)
    (h : (∃ o n, Event.versionWritten d o n ∈ (mainRun e).events) ∨
      Event.fileStaged d ∈ (mainRun e).events ∨
      Event.stageFailed d ∈ (mainRun e).events) :
    ∃ f ∈ changedPathsOf e, d.isPrefixOf f = true := by
  have hloop : (∃ o n, Event.versionWritten d o n ∈ (runLoop e (changedPathsOf e)
        (sortPaths (get_changed_packages (changedPathsOf e) e.ignore
          e.rootManifest.dropLast e.packageDirs))).events) ∨
      Event.fileStaged d ∈ (runLoop e (changedPathsOf e)
        (sortPaths (get_changed_packages (changedPathsOf e) e.ignore
          e.rootManifest.dropLast e.packageDirs))).events ∨
      Event.stageFailed d ∈ (runLoop e (changedPathsOf e)
        (sortPaths (get_changed_packages (changedPathsOf e) e.ignore
          e.rootManifest.dropLast e.packageDirs))).events := by
    rcases h with ⟨o, n, hm⟩ | hm | hm
    · rcases mainRun_events_sub e _ hm with h1 | h1
      · exact Or.inl ⟨o, n, h1⟩
      · exact absurd h1 ((processRoot_no_pkg e _ d).1 o n)
    · rcases mainRun_events_sub e _ hm with h1 | h1
      · exact Or.inr (Or.inl h1)
      · exact absurd h1 (processRoot_no_pkg e _ d).2.1
    · rcases mainRun_events_sub e _ hm with h1 | h1
      · exact Or.inr (Or.inr h1)
      · exact absurd h1 (processRoot_no_pkg e _ d).2.2
  have hds := loop_event_origin e _ _ d hloop
  have hpk := (mem_sortPaths _ _).mp hds
  obtain ⟨-, -, -, f, hf, hpre⟩ := (mem_get_changed_packages _ _ _ _ d).mp hpk
  exact ⟨f, hf, hpre⟩

/-- Witness for C8 at a concrete input: package `a` is written because the
changed file `a/x.py` lies under it. -/
theorem claim_c8_witness :
    ∃ f ∈ changedPathsOf envRootless, ([("a").data] : PathT).isPrefixOf f = true :=
  claim_c8 envRootless [("a").data]
    (Or.inl ⟨("1.2.3").data, ("1.2.4").data, by decide⟩)
